import Mathlib

/-!
# Verification of the cspjs channel library and task state machine

Shallow embedding of `src/channel.js` and `src/state_machine.js`.

Callbacks are identified by numeric ids.  Every callback invocation in the
source goes through `sendValue` / `sendError`, which wrap the call in
`nextTick`; the event loop runs those thunks in FIFO order.  We therefore
model an invocation as an *event* appended to a FIFO log: the position of an
event in the log is its dispatch order, and every event in the log runs
strictly after the synchronous phase of the operation that scheduled it.
-/

namespace Cjs

/-- A scheduled (deferred) callback invocation.  `Ev.ack id err v` models
`nextTick(function () { ackCallback(err, v); })` for the producer-side
callback with id `id`; `Ev.taker` likewise for a consumer callback.
`err = none` is the JS `null` error slot; `v = none` is a JS `null` value. -/
inductive Ev where
  | ack (id : Nat) (err : Option String) (v : Option Nat)
  | taker (id : Nat) (err : Option String) (v : Option Nat)
deriving DecidableEq, Repr

/-- `function CBV(callback, value)` — a parked (value, ack) record in the
channel's `_queue`.  `cb = none` models an absent (`undefined`) callback. -/
structure CBV where
  cb : Option Nat
  value : Nat
deriving DecidableEq, Repr

/-- Channel state: `_queue` (parked values, head = front), `_pending`
(parked taker callback ids, head = front).  `filled` models the method
overrides installed by `Channel.prototype.fill` (`some v` after `fill(v)`). -/
structure Ch where
  queue : List CBV
  pending : List Nat
  filled : Option Nat
deriving DecidableEq, Repr

/-- `new Channel()` — both queues empty, no fill override installed. -/
def Ch.new : Ch := ⟨[], [], none⟩

/-- `Channel.prototype.backlog = _queue.length - _pending.length`. -/
def backlog (ch : Ch) : Int := (ch.queue.length : Int) - ch.pending.length

/-- `sendValue(v, callback)` for a producer ack: schedules `callback(null, v)`
when the callback exists, else nothing. -/
def ackEvs (ack : Option Nat) (err : Option String) (v : Option Nat) : List Ev :=
  match ack with
  | some a => [.ack a err v]
  | none => []

/-- `sendValue(v, callback)` for a consumer callback. -/
def takerEvs (cb : Option Nat) (v : Option Nat) : List Ev :=
  match cb with
  | some c => [.taker c none v]
  | none => []

/-- `Channel.prototype.take` (base, pre-`fill`): if `_queue` is non-empty,
shift the head CBV and schedule `sendValue(q._value, q._callback)` then
`sendValue(q._value, callback)`; otherwise park the callback in `_pending`
if one was given (`callback && this._pending.push(callback)`). -/
def takeB (cb : Option Nat) (ch : Ch) : Ch × List Ev :=
  match ch.queue with
  | q :: rest =>
      ({ ch with queue := rest }, ackEvs q.cb none (some q.value) ++ takerEvs cb (some q.value))
  | [] =>
      match cb with
      | some c => ({ ch with pending := ch.pending ++ [c] }, [])
      | none => (ch, [])

/-- `Channel.prototype.put` (base, pre-`fill`): if `_pending` is non-empty,
shift the head waiter and schedule `sendValue(value, callback)` **then**
`sendValue(value, p)`; otherwise push `new CBV(callback, value)`. -/
def putB (v : Nat) (ack : Option Nat) (ch : Ch) : Ch × List Ev :=
  match ch.pending with
  | p :: rest =>
      ({ ch with pending := rest }, ackEvs ack none (some v) ++ [.taker p none (some v)])
  | [] =>
      ({ ch with queue := ch.queue ++ [⟨ack, v⟩] }, [])

/-- The `while (this.backlog() < 0) { origPut.call(this, value); }` loop of
`Channel.prototype.fill`: each iteration pops the front waiter and schedules
`sendValue(value, p)` (the put's own callback is `undefined`).  `qlen` is the
(unchanging) `_queue.length`. -/
def fillLoop (v : Nat) (qlen : Nat) : List Nat → List Nat × List Ev
  | [] => ([], [])
  | p :: rest =>
      if qlen < (p :: rest).length then
        let r := fillLoop v qlen rest
        (r.1, Ev.taker p none (some v) :: r.2)
      else (p :: rest, [])

/-- `Channel.prototype.fill(value)`.  After the first fill the method is
replaced with `noop`; a fill on a channel with positive backlog throws
(returned as the `Option String` component, with the object unmutated,
since the throw happens before any mutation); otherwise the `take`/`put`
overrides are installed (`filled := some v`) and parked waiters are
satisfied via the `origPut` loop. -/
def fill (v : Nat) (ch : Ch) : Ch × List Ev × Option String :=
  match ch.filled with
  | some _ => (ch, [], none)
  | none =>
      if ch.pending.length < ch.queue.length then
        (ch, [], some "Channel::fill cannot be used after Channel::put has been called")
      else
        let r := fillLoop v ch.queue.length ch.pending
        ({ ch with filled := some v, pending := r.1 }, r.2, none)

/-- `droppingPut` (`Channel.prototype.droppingBuffer(N)`’s `put`): if
`backlog < N`, forward `this._channel.put(value)` (no ack) and schedule
`sendValue(value, callback)`; otherwise drop the value and schedule
`sendValue(null, callback)`. -/
def droppingPut (N : Nat) (v : Nat) (ack : Option Nat) (ch : Ch) : Ch × List Ev :=
  if backlog ch < (N : Int) then
    let r := putB v none ch
    (r.1, r.2 ++ ackEvs ack none (some v))
  else (ch, ackEvs ack none none)

/-- The `while (this.backlog() >= this._bufferLength) { this.take(); }` loop
of `expiringPut`, with an explicit iteration bound: each iteration is a
callback-less base `take`, evicting the oldest queued value.  Every
iteration removes exactly one `_queue` entry, so `_queue.length` bounds the
loop exactly and `fuel = 0` coincides with the empty-queue exit.  (For
`N = 0` with `backlog ≥ 0` and an empty `_queue` the JS loop never
terminates; that branch is modelled as exiting, and is unreachable for
`N ≥ 1`.) -/
def expireLoopF (N : Nat) (fuel : Nat) (ch : Ch) : Ch × List Ev :=
  match fuel with
  | 0 => (ch, [])
  | fuel + 1 =>
      if (N : Int) ≤ backlog ch then
        match ch.queue with
        | [] => (ch, [])
        | _ :: _ =>
            let r := takeB none ch
            let r2 := expireLoopF N fuel r.1
            (r2.1, r.2 ++ r2.2)
      else (ch, [])

/-- The eviction loop of `expiringPut`, entered with its exact bound. -/
def expireLoop (N : Nat) (ch : Ch) : Ch × List Ev :=
  expireLoopF N ch.queue.length ch

/-- `expiringPut` (`Channel.prototype.expiringBuffer(N)`’s `put`): evict
until below capacity, then `this._channel.put(value)` (no ack) and schedule
`sendValue(value, callback)`. -/
def expiringPut (N : Nat) (v : Nat) (ack : Option Nat) (ch : Ch) : Ch × List Ev :=
  let r := expireLoop N ch
  let r2 := putB v none r.1
  (r2.1, r.2 ++ r2.2 ++ ackEvs ack none (some v))

/-- `bufferedPut` (`Channel.prototype.buffer(N)`’s `put`): if `backlog < N`,
forward without ack and immediately schedule `sendValue(value, callback)`;
otherwise forward with the ack attached (producer awaits the consumer). -/
def bufferedPut (N : Nat) (v : Nat) (ack : Option Nat) (ch : Ch) : Ch × List Ev :=
  if backlog ch < (N : Int) then
    let r := putB v none ch
    (r.1, r.2 ++ ackEvs ack none (some v))
  else putB v ack ch

/-- `bufferedTake` (`Channel.prototype.buffer(N)`’s `take`): base take, then
if `backlog ≥ N` still holds, schedule the ack of `_queue[N-1]` early and
null out that record's callback.  (For `N = 0` the JS indexes `_queue[-1]`
and throws `TypeError`; the events already scheduled stand, and we model the
state as otherwise unchanged.) -/
def bufferedTake (N : Nat) (cb : Option Nat) (ch : Ch) : Ch × List Ev :=
  let r := takeB cb ch
  if (N : Int) ≤ backlog r.1 then
    match hq : r.1.queue[N - 1]? with
    | some q =>
        ({ r.1 with queue := r.1.queue.set (N - 1) ⟨none, q.value⟩ },
          r.2 ++ ackEvs q.cb none (some q.value))
    | none => (r.1, r.2)
  else (r.1, r.2)

/-- The personality of a channel object: base, or wrapped by one of the
buffer wrappers (which override `put`, and for `buffer` also `take`). -/
inductive Kind where
  | base
  | buffered (N : Nat)
  | dropping (N : Nat)
  | expiring (N : Nat)
deriving DecidableEq, Repr

/-- `put` dispatch: the `fill` override takes precedence (it replaces the
wrapper's own `put` slot with `sendError('filled', callback)`), else the
wrapper's put. -/
def putK (k : Kind) (v : Nat) (ack : Option Nat) (ch : Ch) : Ch × List Ev :=
  match ch.filled with
  | some _ => (ch, ackEvs ack (some "filled") none)
  | none =>
      match k with
      | .base => putB v ack ch
      | .buffered N => bufferedPut N v ack ch
      | .dropping N => droppingPut N v ack ch
      | .expiring N => expiringPut N v ack ch

/-- `take` dispatch: the `fill` override (`sendValue(value, callback)`)
takes precedence; `buffer` overrides `take`; other wrappers inherit the
base `take`. -/
def takeK (k : Kind) (cb : Option Nat) (ch : Ch) : Ch × List Ev :=
  match ch.filled with
  | some v => (ch, takerEvs cb (some v))
  | none =>
      match k with
      | .buffered N => bufferedTake N cb ch
      | _ => takeB cb ch

/-- An operation applied to a channel by client code. -/
inductive Op where
  | put (v : Nat) (ack : Option Nat)
  | take (cb : Option Nat)
  | fillOp (v : Nat)
deriving DecidableEq, Repr

/-- Channel plus the FIFO log of deferred callback invocations scheduled so
far (in dispatch order). -/
structure St where
  ch : Ch
  log : List Ev
deriving DecidableEq, Repr

def execOp (k : Kind) (st : St) : Op → St
  | .put v ack =>
      let r := putK k v ack st.ch
      ⟨r.1, st.log ++ r.2⟩
  | .take cb =>
      let r := takeK k cb st.ch
      ⟨r.1, st.log ++ r.2⟩
  | .fillOp v =>
      let r := fill v st.ch
      ⟨r.1, st.log ++ r.2.1⟩

/-- Run a sequence of operations against a fresh channel of kind `k`. -/
def runOps (k : Kind) (ops : List Op) : St :=
  ops.foldl (execOp k) ⟨Ch.new, []⟩

/-- Number of invocations of the producer ack with id `id` in an event
log. -/
def ackCount (id : Nat) (evs : List Ev) : Nat :=
  evs.countP (fun e =>
    match e with
    | .ack a _ _ => a == id
    | .taker _ _ _ => false)

/-- Number of parked queue records still holding the ack with id `id`. -/
def qcCount (id : Nat) (ch : Ch) : Nat :=
  ch.queue.countP (fun q => q.cb == some id)

/-- Number of `put` operations in `ops` that supplied the ack id `id`. -/
def putCount (id : Nat) (ops : List Op) : Nat :=
  ops.countP (fun o =>
    match o with
    | .put _ (some a) => a == id
    | _ => false)

/-- The C2 argument discipline: every dispatched ack invocation belongs to
some `put` in the program and carries either `(null, v)` with `v` that
put's value (delivery to a taker, or acceptance within buffer capacity),
`(null, null)` (a `droppingBuffer` discarding the new value — only on a
dropping channel), or `('filled', null)` (a filled channel rejecting the
put). -/
def evOk (k : Kind) (ops : List Op) (e : Ev) : Prop :=
  match e with
  | .ack a err v =>
      ∃ pv, Op.put pv (some a) ∈ ops ∧
        ((err = none ∧ v = some pv) ∨
          ((∃ N, k = .dropping N) ∧ err = none ∧ v = none) ∨
          (err = some "filled" ∧ v = none))
  | .taker _ _ _ => True

/-- Queue-record discipline: a parked ack id always belongs to a `put` in
the program with that record's value. -/
def cbvOk (ops : List Op) (q : CBV) : Prop :=
  ∀ a, q.cb = some a → Op.put q.value (some a) ∈ ops

/-- Contribution of one optional ack callback to the id-`id` count. -/
def acont (ack : Option Nat) (id : Nat) : Nat :=
  if ack = some id then 1 else 0

end Cjs

namespace RES

/-!
Model of `Channel.resolve(thing, recursive, callback)` restricted to the
non-recursive, one-level case the claim cites: `thing` is an array whose
elements are scalars or channels (`resolveArray`).  Channels are identified
by index into a channel heap; each channel is a base channel whose queued
CBVs carry no ack (values were `put` without a callback).  All callback
invocations (`sendValue` and the `take`-scheduled receivers) are deferred,
so the `for` loop of `resolveArray` runs to completion before any receiver
runs; receivers themselves invoke the completion callback synchronously
(`callback(null, arr)`), which we record by snapshotting `arr` into
`cbLog` at that moment.
-/

/-- An element of the structure being resolved: a plain value or a channel
reference. -/
inductive RVal where
  | scalar (n : Nat)
  | chanRef (c : Nat)
deriving DecidableEq, Repr

/-- A channel in the heap: queued plain values (acks absent) and parked
receiver indexes. -/
structure RCh where
  queue : List Nat
  pending : List Nat
deriving DecidableEq, Repr

structure RSt where
  arr : List RVal
  chans : List RCh
  unresolved : Int
  tasks : List (Nat × Nat)
  cbLog : List (List RVal)
deriving DecidableEq, Repr

/-- One iteration of the `for` loop in `resolveArray` (non-recursive):
a scalar element goes through `resolve`'s `sendValue(thing, callback)`
branch (deferred receiver, contributes 0 to `unresolved`); a channel element
goes through `resolveChannel`'s `channel.take(callback)` (contributes 1):
with a queued value the receiver is scheduled now, otherwise it parks. -/
def resolveElem (e : RVal) (i : Nat) (st : RSt) : RSt :=
  match e with
  | .scalar n => { st with tasks := st.tasks ++ [(i, n)] }
  | .chanRef c =>
      let rch := st.chans.getD c ⟨[], []⟩
      match rch.queue with
      | v :: rest =>
          { st with
            chans := st.chans.set c ⟨rest, rch.pending⟩,
            tasks := st.tasks ++ [(i, v)],
            unresolved := st.unresolved + 1 }
      | [] =>
          { st with
            chans := st.chans.set c ⟨[], rch.pending ++ [i]⟩,
            unresolved := st.unresolved + 1 }

/-- The `for (var i = 0; i < arr.length; ++i)` loop: the receivers are all
deferred, so `arr` is unchanged while the loop runs and we may iterate over
its (initial) elements directly. -/
def loopGo : List RVal → Nat → RSt → RSt
  | [], _, st => st
  | e :: rest, i, st => loopGo rest (i + 1) (resolveElem e i st)

/-- `Channel.resolve(arr, false, cb)` up to the end of the synchronous
phase. -/
def startResolve (arr : List RVal) (chans : List RCh) : RSt :=
  loopGo arr 0 ⟨arr, chans, 0, [], []⟩

/-- `receiver(err, value)` for index `i` (non-recursive branch):
`arr[i] = value; --unresolved; if (unresolved === 0) callback(null, arr);`
— the completion callback is invoked synchronously, with the array as it
stands at that moment. -/
def runReceiver (st : RSt) (i : Nat) (v : Nat) : RSt :=
  let st1 := { st with arr := st.arr.set i (.scalar v), unresolved := st.unresolved - 1 }
  if st1.unresolved = 0 then { st1 with cbLog := st1.cbLog ++ [st1.arr] } else st1

/-- Full run: synchronous phase, then the deferred receivers in FIFO order
(in the non-recursive case receivers schedule nothing further). -/
def runResolve (arr : List RVal) (chans : List RCh) : RSt :=
  let s := startResolve arr chans
  s.tasks.foldl (fun st iv => runReceiver st iv.1 iv.2) { s with tasks := [] }

/-- The all-channel input array: slot `j` references channel `j`. -/
def allChans (vs : List Nat) : List RVal :=
  (List.range vs.length).map .chanRef

/-- The channel heap after the loop has consumed the first `k` channels:
channel `j` still holds its one value `vs[j]` iff `j ≥ k`. -/
def chanHeap (vs : List Nat) (k : Nat) : List RCh :=
  (List.range vs.length).map (fun j => if j < k then ⟨[], []⟩ else ⟨[vs.getD j 0], []⟩)

/-- The receivers scheduled by the first `k` loop iterations. -/
def taskPrefix (vs : List Nat) (k : Nat) : List (Nat × Nat) :=
  (List.range k).map (fun j => (j, vs.getD j 0))

/-- The array after the first `k` receivers have run: slots below `k` hold
their resolved values, the rest still hold channel references. -/
def arrMix (vs : List Nat) (k : Nat) : List RVal :=
  (List.range vs.length).map (fun j => if j < k then .scalar (vs.getD j 0) else .chanRef j)

end RES

namespace C8M

/-!
Model of the C8 scenario: `takeN(N, cb)` installed on a fresh base channel,
then `stream(xs, ack)` started on the same channel.  Values are
`Option Nat` with `none` the JS `null`; `N` and `xs` are parameters of the
interpreter.  The closure state of `stream` (`i`) and of `takeN` (`group`)
lives in the scenario state.  The channel's `_queue` entries always carry
`stream`'s `next` as their ack, represented by the tag `TTag.next`.
-/

/-- The deferred thunks arising in this scenario: `next()` (stream's put
ack; ignores its arguments), `receive(err, value)` (takeN's taker),
`sendValue(array, callback)` for the stream's final ack, and
`sendValue(group, callback)` for takeN's completion callback. -/
inductive Task where
  | next
  | receive (v : Option Nat)
  | ackMain (a : List (Option Nat))
  | cbMain (g : List (Option Nat))
deriving DecidableEq, Repr

/-- Callback tags storable in the channel queue (only `next` ever is). -/
inductive TTag where
  | next
deriving DecidableEq, Repr

structure S8 where
  queue : List (Option TTag × Option Nat)
  pending : List Unit
  tasks : List Task
  i : Nat
  group : List (Option Nat)
  logAck : Option (List (Option Nat))
  logCb : Option (List (Option Nat))
deriving DecidableEq, Repr

/-- Base-channel `put` inside the scenario (ack is always `next`): a parked
`receive` is fed, else the CBV parks. -/
def put8 (v : Option Nat) (st : S8) : S8 :=
  match st.pending with
  | _ :: rest =>
      { st with pending := rest, tasks := st.tasks ++ [.next, .receive v] }
  | [] => { st with queue := st.queue ++ [(some .next, v)] }

/-- Base-channel `take(receive)` inside the scenario. -/
def take8 (st : S8) : S8 :=
  match st.queue with
  | (cb, v) :: rest =>
      let acks : List Task := match cb with | some .next => [.next] | none => []
      { st with queue := rest, tasks := st.tasks ++ acks ++ [.receive v] }
  | [] => { st with pending := st.pending ++ [()] }

/-- `function next()` of `Channel.prototype.stream`. -/
def doNext (xs : List (Option Nat)) (st : S8) : S8 :=
  if st.i < xs.length then
    put8 (xs.getD st.i none) { st with i := st.i + 1 }
  else
    { st with tasks := st.tasks ++ [.ackMain xs] }

/-- `function receive(err, value)` of `Channel.prototype.takeN` (the `err`
slot is always null in this scenario). -/
def doReceive (N : Nat) (v : Option Nat) (st : S8) : S8 :=
  match v with
  | some _ =>
      let st1 := { st with group := st.group ++ [v] }
      if st1.group.length < N then take8 st1
      else { st1 with tasks := st1.tasks ++ [.cbMain st1.group] }
  | none => { st with tasks := st.tasks ++ [.cbMain st.group] }

/-- Pop and run one deferred thunk. -/
def step8 (xs : List (Option Nat)) (N : Nat) (st : S8) : S8 :=
  match st.tasks with
  | [] => st
  | t :: rest =>
      let st1 := { st with tasks := rest }
      match t with
      | .next => doNext xs st1
      | .receive v => doReceive N v st1
      | .ackMain a => { st1 with logAck := some a }
      | .cbMain g => { st1 with logCb := some g }

def run8 (xs : List (Option Nat)) (N : Nat) : Nat → S8 → S8
  | 0, st => st
  | n + 1, st => run8 xs N n (step8 xs N st)

/-- The synchronous phase of the scenario: `ch.takeN(|xs|, cb)` (its first
`take` parks `receive`), then `ch.stream(xs, ack)` (which calls `next()`
immediately). -/
def start8 (xs : List (Option Nat)) : S8 :=
  doNext xs (take8 ⟨[], [], [], 0, [], none, none⟩)

/-- The steady state of the stream/takeN protocol: the values in `done`
have been fully delivered, `v` is in flight (its `next` and `receive`
thunks are queued), and both queues are empty. -/
def mid (done : List (Option Nat)) (v : Option Nat) : S8 :=
  { queue := [], pending := [], tasks := [.next, .receive v],
    i := done.length + 1, group := done, logAck := none, logCb := none }

end C8M

namespace SM

/-!
Model of `src/state_machine.js`.  The compiled step function `fn` is
opaque: its calls back into the runtime appear as further operations, so
quantifying over operation sequences covers all compiled tasks.  Scheduling
(`nextTick(this.boundUnwind)` / `nextTick(this.boundStep)`) is recorded by
counters; an adversarially chosen op sequence covers every dispatch order.
Values passed through `args` are `Option Nat`, `none` being JS `null`.
-/

abbrev V := Option Nat

/-- An entry of `state.unwinding`, the tagged variants the runtime pushes:
`{restoreState}`, `{retry}`, `{phi, state}`, `{isError, step, retryStep,
unwindPoint}`, `{cleanup, fn}`, `{cleanup, step, state}`.  The JS `unwind`
dispatches on exactly these fields, in this order. -/
inductive URec where
  | restore (s : List Nat)
  | retryR (step : Nat)
  | phi (step : Nat) (s : Option (List Nat))
  | errH (step : Nat) (retryStep : Nat) (unwindPoint : Nat)
  | cleanupA (fnId : Nat)
  | cleanupS (step : Nat) (s : List Nat)
deriving DecidableEq, Repr

/-- `new State()` plus the observation instrumentation: `finLog` records
each `finalCallback` invocation (with its arguments), `cleanupLog` each
cleanup action run, `schedStep` / `schedUnwind` count `nextTick`
schedulings of `boundStep` / `boundUnwind`. -/
structure SMSt where
  id : Nat
  args : List V
  err : Option Nat
  unwinding : List URec
  waiting : Int
  isFinished : Bool
  isUnwinding : Bool
  strict_unwind : Bool
  currentErrorStep : Option (Nat × Nat × Nat)
  abort_with_error : Option Nat
  locals : List Nat
  finLog : List (List V)
  cleanupLog : List Nat
  schedStep : Nat
  schedUnwind : Nat
deriving DecidableEq, Repr

def init : SMSt :=
  { id := 0, args := [none, none], err := none, unwinding := [], waiting := 0,
    isFinished := false, isUnwinding := false, strict_unwind := false,
    currentErrorStep := none, abort_with_error := none, locals := [],
    finLog := [], cleanupLog := [], schedStep := 0, schedUnwind := 0 }

/-- `StateMachine.prototype.goTo`. -/
def goTo (id : Nat) (st : SMSt) : SMSt :=
  { st with
    id := id, strict_unwind := false, waiting := st.waiting + 1,
    schedStep := st.schedStep + 1 }

/-- `StateMachine.prototype.windTo`. -/
def windTo (step : Nat) (st : SMSt) : SMSt :=
  goTo step { st with isUnwinding := false }

/-- `StateMachine.prototype.beginCleanup(state)`. -/
def beginCleanup (s : List Nat) (st : SMSt) : SMSt :=
  { st with unwinding := st.unwinding ++ [.restore st.locals], locals := s }

/-- `StateMachine.prototype.unwind`.  The JS pops from the *end* of the
`unwinding` array; the `restoreState` branch re-enters `unwind`
synchronously. -/
def unwind (st : SMSt) : SMSt :=
  match hl : st.unwinding.getLast? with
  | some w =>
      let st1 := { st with unwinding := st.unwinding.dropLast, isUnwinding := true }
      match w with
      | .restore s => unwind { st1 with locals := s }
      | .retryR step => windTo step st1
      | .phi step _ =>
          if st1.err.isSome || st1.strict_unwind then
            { st1 with schedUnwind := st1.schedUnwind + 1 }
          else windTo step st1
      | .errH step retryStep up =>
          if st1.err.isSome then
            goTo step { st1 with currentErrorStep := some (step, retryStep, up) }
          else { st1 with schedUnwind := st1.schedUnwind + 1 }
      | .cleanupA fnId =>
          { st1 with
            cleanupLog := st1.cleanupLog ++ [fnId],
            schedUnwind := st1.schedUnwind + 1 }
      | .cleanupS step s => goTo step (beginCleanup s st1)
  | none =>
      if st.isFinished then st
      else { st with waiting := 0, isFinished := true, finLog := st.finLog ++ [st.args] }
termination_by st.unwinding.length
decreasing_by
  have hne : st.unwinding ≠ [] := by
    intro h
    rw [h] at hl
    simp at hl
  simp only [List.length_dropLast]
  have : 0 < st.unwinding.length := List.length_pos.mpr hne
  omega

/-- `StateMachine.prototype.callback(err, ...)` (the `cspjsStack` and
`onerror` bookkeeping has no bearing on the claims and is omitted as pure
diagnostics). -/
def callbackFn (err : Option Nat) (rest : List V) (st : SMSt) : SMSt :=
  { st with
    args := err :: rest, err := err, strict_unwind := true,
    schedUnwind := st.schedUnwind + 1 }

/-- `StateMachine.prototype.retry(...)`: throws (the `Except.error` case)
when `currentErrorStep` is null; otherwise splices the re-armed handler and
a retry record into the unwind stack at the saved depth, clears the error,
and defers `unwind` (via `this.phi()`). -/
def retryFn (argsIn : List V) (st : SMSt) : Except String SMSt :=
  match st.currentErrorStep with
  | none => .error "SyntaxError: retry statement can only be used within catch blocks"
  | some (step, retryStep, up) =>
      .ok { st with
        unwinding := st.unwinding.take up
          ++ [.errH step retryStep up, .retryR retryStep]
          ++ st.unwinding.drop up,
        currentErrorStep := none,
        args := none :: argsIn,
        err := none,
        strict_unwind := true,
        schedUnwind := st.schedUnwind + 1 }

/-- `StateMachine.prototype.pushErrorStep(id, retryID)`. -/
def pushErrorStep (id retryID : Nat) (st : SMSt) : SMSt :=
  goTo retryID
    { st with unwinding := st.unwinding ++ [.errH id retryID st.unwinding.length] }

/-- `StateMachine.prototype.pushCleanupStep(id, afterID)`. -/
def pushCleanupStep (id afterID : Nat) (st : SMSt) : SMSt :=
  goTo afterID { st with unwinding := st.unwinding ++ [.cleanupS id st.locals] }

/-- `StateMachine.prototype.pushCleanupAction`. -/
def pushCleanupAction (fnId : Nat) (st : SMSt) : SMSt :=
  { st with unwinding := st.unwinding ++ [.cleanupA fnId] }

/-- `StateMachine.prototype.pushPhi(id, captureState)`. -/
def pushPhi (id : Nat) (cap : Bool) (st : SMSt) : SMSt :=
  { st with unwinding := st.unwinding ++ [.phi id (if cap then some st.locals else none)] }

/-- `StateMachine.prototype.step` / `performAbort` (the opaque `fn` body's
runtime calls appear as separate operations). -/
def stepFn (st : SMSt) : SMSt :=
  let st1 := { st with waiting := st.waiting - 1 }
  match st1.abort_with_error with
  | some _ => { st1 with abort_with_error := none }
  | none => st1

/-- The control API's `abort(err)`. -/
def abortFn (e : Nat) (st : SMSt) : SMSt :=
  if st.waiting > 0 then { st with abort_with_error := some e }
  else callbackFn (some e) [] st

/-- One call from the compiled task (or the scheduler) into the runtime. -/
inductive SOp where
  | unwindO
  | goToO (id : Nat)
  | windToO (id : Nat)
  | callbackO (err : Option Nat) (rest : List V)
  | retryO (args : List V)
  | pushErrorO (id rid : Nat)
  | pushCleanupSO (id aid : Nat)
  | pushCleanupAO (fnId : Nat)
  | pushPhiO (id : Nat) (cap : Bool)
  | stepO
  | abortO (e : Nat)
deriving DecidableEq, Repr

def execS (st : SMSt) : SOp → SMSt
  | .unwindO => unwind st
  | .goToO id => goTo id st
  | .windToO id => windTo id st
  | .callbackO err rest => callbackFn err rest st
  | .retryO args =>
      match retryFn args st with
      | .ok st' => st'
      | .error _ => st
  | .pushErrorO id rid => pushErrorStep id rid st
  | .pushCleanupSO id aid => pushCleanupStep id aid st
  | .pushCleanupAO fnId => pushCleanupAction fnId st
  | .pushPhiO id cap => pushPhi id cap st
  | .stepO => stepFn st
  | .abortO e => abortFn e st

/-- A task's whole observable life: `start()` (i.e. `goTo 1`) followed by
any sequence of runtime calls. -/
def runS (ops : List SOp) : SMSt :=
  ops.foldl execS (goTo 1 init)

/-- The exactly-once bookkeeping invariant for the final callback: before
the machine finishes, `finalCallback` has never been invoked; once
finished, it has been invoked exactly once. -/
def finInv (st : SMSt) : Prop :=
  (st.isFinished = false → st.finLog = []) ∧
    (st.isFinished = true → st.finLog.length = 1)

end SM

/-! ## Helper lemmas -/

namespace Cjs

/-- The C4 invariant: at least one of the two queues is empty. -/
def baseInv (ch : Ch) : Prop := ch.queue = [] ∨ ch.pending = []

theorem putB_baseInv (v : Nat) (ack : Option Nat) (ch : Ch) (h : baseInv ch) :
    baseInv (putB v ack ch).1 := by
  unfold putB
  match hp : ch.pending with
  | p :: rest =>
      rcases h with h | h
      · exact Or.inl h
      · rw [hp] at h
        exact absurd h (by simp)
  | [] =>
      exact Or.inr rfl

theorem takeB_baseInv (cb : Option Nat) (ch : Ch) (h : baseInv ch) :
    baseInv (takeB cb ch).1 := by
  match hq : ch.queue with
  | q :: rest =>
      rcases h with h | h
      · rw [hq] at h
        exact absurd h (by simp)
      · simp only [takeB, hq]
        exact Or.inr h
  | [] =>
      match hcb : cb with
      | some c =>
          simp only [takeB, hq]
          exact Or.inl rfl
      | none =>
          simp only [takeB, hq]
          exact h

theorem fill_baseInv (v : Nat) (ch : Ch) (h : baseInv ch) :
    baseInv (fill v ch).1 := by
  unfold fill
  match hf : ch.filled with
  | some _ => exact h
  | none =>
      by_cases hc : ch.pending.length < ch.queue.length
      · simp only [hc, if_true]
        exact h
      · simp only [hc, if_false]
        -- here |queue| ≤ |pending|; with the invariant the queue is empty
        have hq : ch.queue = [] := by
          rcases h with h | h
          · exact h
          · rw [h] at hc
            simp at hc
            exact hc
        exact Or.inl hq

theorem execOp_baseInv (op : Op) (st : St) (h : baseInv st.ch) :
    baseInv (execOp .base st op).ch := by
  cases op with
  | put v ack =>
      simp only [execOp, putK]
      match hf : st.ch.filled with
      | some w => exact h
      | none => exact putB_baseInv v ack st.ch h
  | take cb =>
      simp only [execOp, takeK]
      match hf : st.ch.filled with
      | some w => exact h
      | none => exact takeB_baseInv cb st.ch h
  | fillOp v =>
      simp only [execOp]
      exact fill_baseInv v st.ch h

theorem foldl_baseInv (ops : List Op) (st : St) (h : baseInv st.ch) :
    baseInv (ops.foldl (execOp .base) st).ch := by
  induction ops generalizing st with
  | nil => exact h
  | cons op rest ih => exact ih _ (execOp_baseInv op st h)

end Cjs

namespace SM

theorem finInv_empty_unwind (st : SMSt) (h : finInv st)
    (hl : st.unwinding.getLast? = none) : finInv (unwind st) := by
  rw [unwind.eq_def]
  split
  · next w hl2 =>
      rw [hl] at hl2
      simp at hl2
  · by_cases hf : st.isFinished
    · simp only [hf, if_true]
      exact h
    · rw [if_neg hf]
      refine ⟨fun hc => by simp at hc, fun _ => ?_⟩
      have : st.finLog = [] := h.1 (by simpa using hf)
      simp [this]

theorem unwind_finInv_aux : ∀ (n : Nat) (st : SMSt), st.unwinding.length ≤ n →
    finInv st → finInv (unwind st) := by
  intro n
  induction n with
  | zero =>
      intro st hlen h
      have he : st.unwinding = [] := List.length_eq_zero.mp (Nat.le_zero.mp hlen)
      exact finInv_empty_unwind st h (by simp [he])
  | succ n ih =>
      intro st hlen h
      match hl : st.unwinding.getLast? with
      | none => exact finInv_empty_unwind st h hl
      | some w =>
          have hdrop : st.unwinding.dropLast.length ≤ n := by
            simp only [List.length_dropLast]
            omega
          rw [unwind.eq_def]
          split
          · next w2 hl2 =>
              split
              · exact ih _ hdrop ⟨h.1, h.2⟩
              · exact h
              · dsimp only
                split
                · exact h
                · exact h
              · dsimp only
                split
                · exact h
                · exact h
              · exact h
              · exact h
          · exact absurd hl (by next hn => rw [hn]; simp)

theorem unwind_finInv (st : SMSt) (h : finInv st) : finInv (unwind st) :=
  unwind_finInv_aux st.unwinding.length st le_rfl h

theorem execS_finInv (st : SMSt) (op : SOp) (h : finInv st) :
    finInv (execS st op) := by
  cases op with
  | unwindO => exact unwind_finInv st h
  | goToO id => exact ⟨h.1, h.2⟩
  | windToO id => exact ⟨h.1, h.2⟩
  | callbackO err rest => exact ⟨h.1, h.2⟩
  | retryO args =>
      simp only [execS]
      match hc : retryFn args st with
      | .ok st' =>
          unfold retryFn at hc
          match hce : st.currentErrorStep with
          | none => rw [hce] at hc; simp at hc
          | some (s, r, p) =>
              rw [hce] at hc
              simp at hc
              rw [← hc]
              exact ⟨h.1, h.2⟩
      | .error e => exact h
  | pushErrorO id rid => exact ⟨h.1, h.2⟩
  | pushCleanupSO id aid => exact ⟨h.1, h.2⟩
  | pushCleanupAO fnId => exact ⟨h.1, h.2⟩
  | pushPhiO id cap => exact ⟨h.1, h.2⟩
  | stepO =>
      simp only [execS, stepFn]
      match hab : ({ st with waiting := st.waiting - 1 } : SMSt).abort_with_error with
      | some e => exact ⟨h.1, h.2⟩
      | none => exact ⟨h.1, h.2⟩
  | abortO e =>
      simp only [execS, abortFn]
      by_cases hw : st.waiting > 0
      · simp only [hw, if_true]
        exact ⟨h.1, h.2⟩
      · rw [if_neg hw]
        exact ⟨h.1, h.2⟩

theorem foldl_finInv (ops : List SOp) (st : SMSt) (h : finInv st) :
    finInv (ops.foldl execS st) := by
  induction ops generalizing st with
  | nil => exact h
  | cons op rest ih => exact ih _ (execS_finInv st op h)

theorem runS_finInv (ops : List SOp) : finInv (runS ops) :=
  foldl_finInv ops _ ⟨fun _ => rfl, fun hc => by simp [goTo, init] at hc⟩

theorem unwind_finished_aux : ∀ (n : Nat) (st : SMSt), st.unwinding.length ≤ n →
    st.isFinished = true →
    (unwind st).finLog = st.finLog ∧ (unwind st).isFinished = true := by
  intro n
  induction n with
  | zero =>
      intro st hlen hf
      have he : st.unwinding = [] := List.length_eq_zero.mp (Nat.le_zero.mp hlen)
      rw [unwind.eq_def]
      split
      · next w hl2 =>
          rw [he] at hl2
          simp at hl2
      · simp only [hf, if_true]
        exact ⟨trivial, trivial⟩
  | succ n ih =>
      intro st hlen hf
      have hdrop : st.unwinding.dropLast.length ≤ n := by
        simp only [List.length_dropLast]
        omega
      rw [unwind.eq_def]
      split
      · next w2 hl2 =>
          split
          · exact ih _ hdrop hf
          · exact ⟨rfl, hf⟩
          · dsimp only
            split
            · exact ⟨rfl, hf⟩
            · exact ⟨rfl, hf⟩
          · dsimp only
            split
            · exact ⟨rfl, hf⟩
            · exact ⟨rfl, hf⟩
          · exact ⟨rfl, hf⟩
          · exact ⟨rfl, hf⟩
      · simp only [hf, if_true]
        exact ⟨trivial, trivial⟩

end SM

/-- **C7.** The final callback is invoked exactly once: over every sequence
of runtime operations the invocation count never exceeds one; the unwind
loop invokes `finalCallback` precisely when the unwind stack is empty and
`isFinished` is still false, setting `isFinished` in the same step; and once
`isFinished` is set, no subsequent `unwind` — whatever the stack — invokes
it again. -/
theorem claim_C7_final_callback_once :
    (∀ ops : List SM.SOp, (SM.runS ops).finLog.length ≤ 1) ∧
    (∀ st : SM.SMSt, st.unwinding = [] → st.isFinished = false →
        SM.unwind st
          = { st with
              waiting := 0, isFinished := true,
              finLog := st.finLog ++ [st.args] }) ∧
    (∀ st : SM.SMSt, st.isFinished = true →
        (SM.unwind st).finLog = st.finLog ∧ (SM.unwind st).isFinished = true) := by
  refine ⟨?_, ?_, ?_⟩
  · intro ops
    have h := SM.runS_finInv ops
    by_cases hf : (SM.runS ops).isFinished
    · rw [h.2 hf]
    · rw [h.1 (by simpa using hf)]
      simp
  · intro st he hf
    rw [SM.unwind.eq_def]
    split
    · next w hl2 =>
        rw [he] at hl2
        simp at hl2
    · rw [if_neg (by simp [hf])]
  · intro st hf
    exact SM.unwind_finished_aux st.unwinding.length st le_rfl hf

/-- Witness for C7: an unwind on an empty stack finishes and logs one final
callback invocation; an unwind on an already-finished machine does not log
another. -/
theorem claim_C7_final_callback_once_witness :
    SM.unwind { SM.init with args := [none, some 5] }
        = { SM.init with
            args := [none, some 5], waiting := 0,
            isFinished := true, finLog := [[none, some 5]] } ∧
      (SM.unwind { SM.init with isFinished := true, finLog := [[none]] }).finLog
        = [[none]] := by
  constructor
  · exact claim_C7_final_callback_once.2.1 { SM.init with args := [none, some 5] } rfl rfl
  · exact (claim_C7_final_callback_once.2.2
      { SM.init with isFinished := true, finLog := [[none]] } rfl).1

/-! ## Claim theorems -/

/-- **C4.** For every finite sequence of operations on a newly created base
channel, at every observable point at least one of `_queue` and `_pending`
is empty, and `backlog()` equals `|_queue| − |_pending|`. -/
theorem claim_C4_queue_invariant (ops : List Cjs.Op) :
    ((Cjs.runOps .base ops).ch.queue = [] ∨ (Cjs.runOps .base ops).ch.pending = []) ∧
      Cjs.backlog (Cjs.runOps .base ops).ch
        = ((Cjs.runOps .base ops).ch.queue.length : Int)
          - (Cjs.runOps .base ops).ch.pending.length := by
  constructor
  · exact Cjs.foldl_baseInv ops ⟨Cjs.Ch.new, []⟩ (Or.inl rfl)
  · rfl

/-- **C9.** A callback-less `take()` on a base channel with a non-empty
ready queue removes the head `(value, ack)` pair and schedules
`ack(null, value)` (when the producer supplied an ack); on an empty ready
queue it is a no-op — nothing is parked. -/
theorem claim_C9_callbackless_take :
    (∀ (ch : Cjs.Ch) (q : Cjs.CBV) (rest : List Cjs.CBV),
        ch.filled = none → ch.queue = q :: rest →
        Cjs.takeK .base none ch
          = ({ ch with queue := rest }, Cjs.ackEvs q.cb none (some q.value))) ∧
    (∀ ch : Cjs.Ch, ch.filled = none → ch.queue = [] →
        Cjs.takeK .base none ch = (ch, [])) := by
  constructor
  · intro ch q rest hf hq
    simp [Cjs.takeK, Cjs.takeB, hf, hq, Cjs.takerEvs]
  · intro ch hf hq
    simp [Cjs.takeK, Cjs.takeB, hf, hq]

/-- Witness for C9 at a concrete channel with one queued value (ack id 4,
value 11) and at a concrete empty channel. -/
theorem claim_C9_callbackless_take_witness :
    Cjs.takeK .base none ⟨[⟨some 4, 11⟩], [], none⟩
        = (⟨[], [], none⟩, [Cjs.Ev.ack 4 none (some 11)]) ∧
      Cjs.takeK .base none ⟨[], [7], none⟩ = (⟨[], [7], none⟩, []) := by
  constructor
  · exact claim_C9_callbackless_take.1 ⟨[⟨some 4, 11⟩], [], none⟩ ⟨some 4, 11⟩ [] rfl rfl
  · exact claim_C9_callbackless_take.2 ⟨[], [7], none⟩ rfl rfl

/-- **C10.** `fill(v)` on a channel with strictly positive backlog throws
synchronously (the error message below) and leaves the channel unchanged —
the throw happens before any mutation, so `take`, `put` and `fill` retain
their prior behavior. -/
theorem claim_C10_fill_positive_backlog_throws (ch : Cjs.Ch) (v : Nat)
    (hf : ch.filled = none) (hb : 0 < Cjs.backlog ch) :
    Cjs.fill v ch
      = (ch, [], some "Channel::fill cannot be used after Channel::put has been called") := by
  have hlen : ch.pending.length < ch.queue.length := by
    unfold Cjs.backlog at hb
    omega
  simp [Cjs.fill, hf, hlen]

/-- With an empty ready queue, the `origPut` loop of `fill` satisfies every
parked waiter, in order, with the fill value. -/
theorem fillLoop_empty_queue (v : Nat) (p : List Nat) :
    Cjs.fillLoop v 0 p = ([], p.map (fun w => Cjs.Ev.taker w none (some v))) := by
  induction p with
  | nil => rfl
  | cons w rest ih =>
      simp [Cjs.fillLoop, ih]

/-- **C5.** After `fill(v)` on a channel with `backlog ≤ 0` (satisfying the
queue invariant): every parked waiter is immediately satisfied with `v`, in
order; every future `take(cb)` yields `v` via deferred dispatch of
`cb(null, v)`; every future `put(w, ack)` invokes the ack with error
`'filled'`; and any further `fill` is a no-op. -/
theorem claim_C5_fill_postconditions (ch : Cjs.Ch) (v : Nat)
    (hf : ch.filled = none) (hinv : ch.queue = [] ∨ ch.pending = [])
    (hb : Cjs.backlog ch ≤ 0) :
    Cjs.fill v ch
        = ({ ch with filled := some v, pending := [] },
           ch.pending.map (fun w => Cjs.Ev.taker w none (some v)), none) ∧
      (∀ c, Cjs.takeK .base (some c) { ch with filled := some v, pending := ([] : List Nat) }
          = ({ ch with filled := some v, pending := [] }, [Cjs.Ev.taker c none (some v)])) ∧
      (∀ w a, Cjs.putK .base w (some a) { ch with filled := some v, pending := ([] : List Nat) }
          = ({ ch with filled := some v, pending := [] }, [Cjs.Ev.ack a (some "filled") none])) ∧
      (∀ w, Cjs.fill w { ch with filled := some v, pending := ([] : List Nat) }
          = ({ ch with filled := some v, pending := [] }, [], none)) := by
  have hq : ch.queue = [] := by
    rcases hinv with h | h
    · exact h
    · unfold Cjs.backlog at hb
      rw [h] at hb
      simp at hb
      exact hb
  refine ⟨?_, ?_, ?_, ?_⟩
  · have hlen : ¬ ch.pending.length < ch.queue.length := by
      rw [hq]; simp
    simp [Cjs.fill, hf, hlen, hq, fillLoop_empty_queue]
  · intro c
    simp [Cjs.takeK, Cjs.takerEvs]
  · intro w a
    simp [Cjs.putK, Cjs.ackEvs]
  · intro w
    simp [Cjs.fill]

/-- Witness for C5 at a channel with two parked waiters (ids 5, 6) filled
with value 3. -/
theorem claim_C5_fill_postconditions_witness :
    Cjs.fill 3 ⟨[], [5, 6], none⟩
        = (⟨[], [], some 3⟩, [Cjs.Ev.taker 5 none (some 3), Cjs.Ev.taker 6 none (some 3)], none) ∧
      Cjs.takeK .base (some 9) ⟨[], [], some 3⟩
        = (⟨[], [], some 3⟩, [Cjs.Ev.taker 9 none (some 3)]) ∧
      Cjs.putK .base 8 (some 2) ⟨[], [], some 3⟩
        = (⟨[], [], some 3⟩, [Cjs.Ev.ack 2 (some "filled") none]) ∧
      Cjs.fill 4 ⟨[], [], some 3⟩ = (⟨[], [], some 3⟩, [], none) := by
  obtain ⟨h1, h2, h3, h4⟩ :=
    claim_C5_fill_postconditions ⟨[], [5, 6], none⟩ 3 rfl (Or.inl rfl) (by decide)
  exact ⟨h1, h2 9, h3 8 2, h4 4⟩

/-- Witness for C10: a channel holding one parked value. -/
theorem claim_C10_fill_positive_backlog_throws_witness :
    Cjs.fill 5 ⟨[⟨none, 3⟩], [], none⟩
      = (⟨[⟨none, 3⟩], [], none⟩, [],
          some "Channel::fill cannot be used after Channel::put has been called") :=
  claim_C10_fill_positive_backlog_throws ⟨[⟨none, 3⟩], [], none⟩ 5 rfl (by decide)

/-- **C3, counterexample.**  Pair `take(cb)` (id 0) with `put(7, ack)`
(id 1) on a fresh base channel.  The deferred-dispatch log is
`[ack(null,7), cb(null,7)]`: there are no positions `i < j` with the
taker's callback at `i` and the producer's ack at `j`, so the ack does
*not* run strictly after the value is consumed by `cb` — `put` schedules
`sendValue(value, callback)` before `sendValue(value, p)`. -/
theorem claim_C3_counterexample :
    (Cjs.runOps .base [.take (some 0), .put 7 (some 1)]).log
        = [Cjs.Ev.ack 1 none (some 7), Cjs.Ev.taker 0 none (some 7)] ∧
      ¬ ∃ i j : Fin (Cjs.runOps .base [.take (some 0), .put 7 (some 1)]).log.length,
          (i : Nat) < j
          ∧ (Cjs.runOps .base [.take (some 0), .put 7 (some 1)]).log.get i
              = Cjs.Ev.taker 0 none (some 7)
          ∧ (Cjs.runOps .base [.take (some 0), .put 7 (some 1)]).log.get j
              = Cjs.Ev.ack 1 none (some 7) := by
  constructor
  · rfl
  · decide

/-- **C3, amended.**  For every pairing of a `put(v, ack)` with a
`take(cb)` on a base channel, both callbacks are dispatched through the
deferred log (hence strictly after the tick in which the pairing happens),
with the producer's `ack(null, v)` dispatched immediately *before* — not
after — the taker's `cb(null, v)`.  Stated for a `put` meeting a parked
waiter, a `take` meeting a parked value, and the two-operation scenario
from a fresh channel. -/
theorem claim_C3_amended :
    (∀ (ch : Cjs.Ch) (v a c : Nat) (rest : List Nat),
        ch.filled = none → ch.pending = c :: rest →
        Cjs.putK .base v (some a) ch
          = ({ ch with pending := rest },
             [Cjs.Ev.ack a none (some v), Cjs.Ev.taker c none (some v)])) ∧
    (∀ (ch : Cjs.Ch) (a c : Nat) (q : Cjs.CBV) (rest : List Cjs.CBV),
        ch.filled = none → ch.queue = q :: rest → q.cb = some a →
        Cjs.takeK .base (some c) ch
          = ({ ch with queue := rest },
             [Cjs.Ev.ack a none (some q.value), Cjs.Ev.taker c none (some q.value)])) ∧
    (∀ v a c : Nat,
        (Cjs.runOps .base [.take (some c), .put v (some a)]).log
          = [Cjs.Ev.ack a none (some v), Cjs.Ev.taker c none (some v)]) := by
  refine ⟨?_, ?_, ?_⟩
  · intro ch v a c rest hf hp
    simp [Cjs.putK, Cjs.putB, hf, hp, Cjs.ackEvs]
  · intro ch a c q rest hf hq hcb
    simp [Cjs.takeK, Cjs.takeB, hf, hq, hcb, Cjs.ackEvs, Cjs.takerEvs]
  · intro v a c
    simp [Cjs.runOps, Cjs.execOp, Cjs.takeK, Cjs.takeB, Cjs.putK, Cjs.putB, Cjs.Ch.new,
      Cjs.ackEvs, Cjs.takerEvs]

/-- Witness for the amended C3 at concrete inputs (waiter id 2 / ack id 3,
value 7; and the two-operation scenario). -/
theorem claim_C3_amended_witness :
    Cjs.putK .base 7 (some 3) ⟨[], [2], none⟩
        = (⟨[], [], none⟩, [Cjs.Ev.ack 3 none (some 7), Cjs.Ev.taker 2 none (some 7)]) ∧
      Cjs.takeK .base (some 2) ⟨[⟨some 3, 7⟩], [], none⟩
        = (⟨[], [], none⟩, [Cjs.Ev.ack 3 none (some 7), Cjs.Ev.taker 2 none (some 7)]) := by
  constructor
  · exact claim_C3_amended.1 ⟨[], [2], none⟩ 7 3 2 [] rfl rfl
  · exact claim_C3_amended.2.1 ⟨[⟨some 3, 7⟩], [], none⟩ 3 2 ⟨some 3, 7⟩ [] rfl rfl rfl

/-- **C6.** `retry()` with a null `currentErrorStep` throws a synchronous
error; with a non-null one it splices — at the handler's saved anchor depth
`p` — first the re-armed error-handler record and then a `Retry` record
pointing at the handler's `retryStep`, clears `err`, sets
`strict_unwind = true`, and defers `unwind` (one more scheduled
`boundUnwind`). -/
theorem claim_C6_retry (st : SM.SMSt) (args : List SM.V) :
    (st.currentErrorStep = none →
        SM.retryFn args st
          = .error "SyntaxError: retry statement can only be used within catch blocks") ∧
    (∀ s r p, st.currentErrorStep = some (s, r, p) →
        ∃ st', SM.retryFn args st = .ok st'
          ∧ st'.unwinding
              = st.unwinding.take p
                ++ [.errH s r p, .retryR r]
                ++ st.unwinding.drop p
          ∧ st'.err = none
          ∧ st'.strict_unwind = true
          ∧ st'.currentErrorStep = none
          ∧ st'.schedUnwind = st.schedUnwind + 1) := by
  constructor
  · intro h
    simp [SM.retryFn, h]
  · intro s r p h
    refine ⟨{ st with
        unwinding := st.unwinding.take p
          ++ [.errH s r p, .retryR r]
          ++ st.unwinding.drop p,
        currentErrorStep := none,
        args := none :: args,
        err := none,
        strict_unwind := true,
        schedUnwind := st.schedUnwind + 1 }, ?_, rfl, rfl, rfl, rfl, rfl⟩
    simp [SM.retryFn, h]

/-- Witness for C6: a state inside a catch block (handler at step 4,
retry step 2, anchor depth 1, one cleanup record below and one phi record
above the anchor), and the throwing case at the initial state. -/
theorem claim_C6_retry_witness :
    (SM.retryFn [] SM.init
        = .error "SyntaxError: retry statement can only be used within catch blocks") ∧
      ∃ st', SM.retryFn [some 1]
          { SM.init with
            unwinding := [.cleanupA 9, .phi 8 none],
            currentErrorStep := some (4, 2, 1),
            err := some 3 }
          = .ok st'
        ∧ st'.unwinding = [.cleanupA 9, .errH 4 2 1, .retryR 2, .phi 8 none]
        ∧ st'.err = none
        ∧ st'.strict_unwind = true
        ∧ st'.currentErrorStep = none
        ∧ st'.schedUnwind = 1 := by
  constructor
  · exact (claim_C6_retry SM.init []).1 rfl
  · obtain ⟨st', h1, h2, h3, h4, h5, h6⟩ :=
      (claim_C6_retry
        { SM.init with
          unwinding := [.cleanupA 9, .phi 8 none],
          currentErrorStep := some (4, 2, 1),
          err := some 3 } [some 1]).2 4 2 1 rfl
    exact ⟨st', h1, h2, h3, h4, h5, h6⟩

namespace C8M

theorem run8_add (xs : List (Option Nat)) (N a b : Nat) (st : S8) :
    run8 xs N (a + b) st = run8 xs N b (run8 xs N a st) := by
  induction a generalizing st with
  | zero => rw [Nat.zero_add]; rfl
  | succ a ih =>
      have : a + 1 + b = (a + b) + 1 := by omega
      rw [this]
      show run8 xs N (a + b) (step8 xs N st) = _
      rw [ih]
      rfl

theorem getD_map_some_append (done : List Nat) (n w : Nat) (rest : List Nat) :
    ((done ++ n :: w :: rest).map some).getD (done.length + 1) (none : Option Nat)
      = some w := by
  induction done with
  | nil => rfl
  | cons d ds ih => simpa using ih

theorem start8_eq (x : Option Nat) (rest : List (Option Nat)) :
    start8 (x :: rest) = mid [] x := by
  simp [start8, take8, doNext, put8, mid, List.getD]

theorem getElem_map_append (done : List Nat) (n w : Nat) (rest : List Nat)
    (h : done.length + 1
      < (List.map some done ++ some n :: some w :: List.map some rest).length) :
    (List.map some done ++ some n :: some w :: List.map some rest)[done.length + 1]
      = some w := by
  induction done with
  | nil => rfl
  | cons d ds ih => simpa using ih (by simp)

/-- One full round of the stream/takeN protocol: the in-flight value `n` is
appended to the group and the next value `w` goes in flight. -/
theorem mid_step (done rest : List Nat) (n w : Nat) :
    run8 ((done ++ n :: w :: rest).map some) (done ++ n :: w :: rest).length 2
        (mid (done.map some) (some n))
      = mid ((done ++ [n]).map some) (some w) := by
  have hlt : done.length + 1 < ((done ++ n :: w :: rest).map some).length := by
    simp only [List.length_map, List.length_append, List.length_cons]
    omega
  have hlt2 : (done.map some ++ [some n]).length < (done ++ n :: w :: rest).length := by
    simp
  simp [run8, step8, doNext, doReceive, put8, take8, mid, getD_map_some_append, hlt, hlt2,
    getElem_map_append]

/-- The last round: the stream's final ack and takeN's completion callback
both fire with the whole array. -/
theorem mid_finish (done : List Nat) (n : Nat) :
    run8 ((done ++ [n]).map some) (done ++ [n]).length 4 (mid (done.map some) (some n))
      = { queue := [], pending := [], tasks := [],
          i := done.length + 1, group := (done ++ [n]).map some,
          logAck := some ((done ++ [n]).map some),
          logCb := some ((done ++ [n]).map some) } := by
  have hge : ¬ (mid (done.map some) (some n)).i < ((done ++ [n]).map some).length := by
    simp [mid]
  simp [run8, step8, doNext, doReceive, put8, take8, mid, hge]

theorem mid_run (rest : List Nat) : ∀ (done : List Nat) (n : Nat),
    (run8 ((done ++ n :: rest).map some) (done ++ n :: rest).length
        (2 * rest.length + 4) (mid (done.map some) (some n))).logCb
      = some ((done ++ n :: rest).map some) ∧
    (run8 ((done ++ n :: rest).map some) (done ++ n :: rest).length
        (2 * rest.length + 4) (mid (done.map some) (some n))).logAck
      = some ((done ++ n :: rest).map some) := by
  induction rest with
  | nil =>
      intro done n
      have h4 : 2 * ([] : List Nat).length + 4 = 4 := by norm_num
      rw [h4, mid_finish done n]
      exact ⟨rfl, rfl⟩
  | cons w rest2 ih =>
      intro done n
      have hfuel : 2 * (w :: rest2).length + 4 = 2 + (2 * rest2.length + 4) := by
        simp [List.length_cons]
        omega
      rw [hfuel, run8_add, mid_step done rest2 n w]
      have hassoc : done ++ n :: w :: rest2 = (done ++ [n]) ++ w :: rest2 := by
        simp
      rw [hassoc]
      exact ih (done ++ [n]) w

end C8M

/-- **C8, counterexample.**  For `xs = [null]`, running `takeN(1, cb)` and
then `stream(xs, ack)` calls `cb` with `[]`, not with `xs`: `takeN` treats
the `null` value as the end sentinel and completes with the partial (empty)
group. -/
theorem claim_C8_counterexample :
    (C8M.run8 [none] 1 (2 * 1 + 2) (C8M.start8 [none])).logCb = some [] ∧
      some ([] : List (Option Nat)) ≠ some [none] :=
  ⟨rfl, by simp⟩

/-- **C8, amended.**  For every *non-empty* array `xs` containing no
`null`, `stream(xs, ack)` running against `takeN(|xs|, cb)` on the same
channel calls `cb` with an array equal to `xs`, and the stream's own ack
with `xs` after the last element is accepted. -/
theorem claim_C8_amended (xs : List Nat) (hne : xs ≠ []) :
    (C8M.run8 (xs.map some) xs.length (2 * xs.length + 2)
        (C8M.start8 (xs.map some))).logCb = some (xs.map some) ∧
    (C8M.run8 (xs.map some) xs.length (2 * xs.length + 2)
        (C8M.start8 (xs.map some))).logAck = some (xs.map some) := by
  match xs, hne with
  | x :: rest, _ =>
      have hs : C8M.start8 ((x :: rest).map some) = C8M.mid [] (some x) := by
        rw [List.map_cons]
        exact C8M.start8_eq (some x) (rest.map some)
      have hfuel : 2 * (x :: rest).length + 2 = 2 * rest.length + 4 := by
        simp [List.length_cons]
        omega
      rw [hs, hfuel]
      exact C8M.mid_run rest [] x

/-- Witness for the amended C8 at `xs = [10, 20]`. -/
theorem claim_C8_amended_witness :
    (C8M.run8 [some 10, some 20] 2 6 (C8M.start8 [some 10, some 20])).logCb
        = some [some 10, some 20] ∧
    (C8M.run8 [some 10, some 20] 2 6 (C8M.start8 [some 10, some 20])).logAck
        = some [some 10, some 20] :=
  claim_C8_amended [10, 20] (by simp)

namespace RES

theorem getD_map_range {α : Type} (n k : Nat) (f : Nat → α) (d : α) (h : k < n) :
    ((List.range n).map f).getD k d = f k := by
  rw [List.getD_eq_getElem?_getD, List.getElem?_map,
    List.getElem?_eq_getElem (by simpa using h)]
  simp [List.getElem_range]

theorem chanHeap_get (vs : List Nat) (k : Nat) (h : k < vs.length) :
    (chanHeap vs k).getD k ⟨[], []⟩ = ⟨[vs.getD k 0], []⟩ := by
  unfold chanHeap
  rw [getD_map_range _ _ _ _ h]
  simp

theorem chanHeap_set (vs : List Nat) (k : Nat) (h : k < vs.length) :
    (chanHeap vs k).set k ⟨[], []⟩ = chanHeap vs (k + 1) := by
  unfold chanHeap
  apply List.ext_getElem
  · simp
  intro i h1 h2
  rw [List.getElem_set]
  by_cases hik : k = i
  · subst hik
    simp only [List.getElem_map, List.getElem_range]
    simp
  · simp only [if_neg hik, List.getElem_map, List.getElem_range]
    have hi : i < vs.length := by simpa using h2
    by_cases hlt : i < k
    · rw [if_pos hlt, if_pos (by omega)]
    · rw [if_neg hlt, if_neg (by omega)]

theorem arrMix_set (vs : List Nat) (k : Nat) (h : k < vs.length) :
    (arrMix vs k).set k (.scalar (vs.getD k 0)) = arrMix vs (k + 1) := by
  unfold arrMix
  apply List.ext_getElem
  · simp
  intro i h1 h2
  rw [List.getElem_set]
  by_cases hik : k = i
  · subst hik
    simp only [List.getElem_map, List.getElem_range]
    simp
  · simp only [if_neg hik, List.getElem_map, List.getElem_range]
    by_cases hlt : i < k
    · rw [if_pos hlt, if_pos (by omega)]
    · rw [if_neg hlt, if_neg (by omega)]

theorem arrMix_zero (vs : List Nat) : arrMix vs 0 = allChans vs := by
  simp [arrMix, allChans]

theorem arrMix_full (vs : List Nat) : arrMix vs vs.length = vs.map .scalar := by
  apply List.ext_getElem
  · simp [arrMix]
  intro i h1 h2
  have hi : i < vs.length := by simpa using h2
  simp [arrMix, List.getElem_map, List.getElem_range, hi, List.getD_eq_getElem?_getD,
    List.getElem?_eq_getElem hi]

theorem taskPrefix_succ (vs : List Nat) (k : Nat) :
    taskPrefix vs (k + 1) = taskPrefix vs k ++ [(k, vs.getD k 0)] := by
  unfold taskPrefix
  rw [List.range_succ]
  simp

theorem chanHeap_init (vs : List Nat) :
    vs.map (fun v => (⟨[v], []⟩ : RCh)) = chanHeap vs 0 := by
  apply List.ext_getElem
  · simp [chanHeap]
  intro i h1 h2
  have hi : i < vs.length := by simpa using h1
  simp [chanHeap, List.getElem_map, List.getElem_range, List.getD_eq_getElem?_getD,
    List.getElem?_eq_getElem hi]

theorem loop_run (vs : List Nat) (m : Nat) : ∀ (k : Nat), k + m = vs.length →
    loopGo ((List.range' k m).map .chanRef) k
        ⟨allChans vs, chanHeap vs k, (k : Int), taskPrefix vs k, []⟩
      = ⟨allChans vs, chanHeap vs vs.length, (vs.length : Int),
          taskPrefix vs vs.length, []⟩ := by
  induction m with
  | zero =>
      intro k hk
      have : k = vs.length := by omega
      subst this
      rfl
  | succ m ih =>
      intro k hk
      have hklt : k < vs.length := by omega
      rw [List.range'_succ, List.map_cons]
      show loopGo _ (k + 1) (resolveElem (.chanRef k) k _) = _
      have hre : resolveElem (.chanRef k) k
          ⟨allChans vs, chanHeap vs k, (k : Int), taskPrefix vs k, []⟩
          = ⟨allChans vs, chanHeap vs (k + 1), ((k + 1 : Nat) : Int),
              taskPrefix vs (k + 1), []⟩ := by
        simp only [resolveElem, chanHeap_get vs k hklt]
        rw [chanHeap_set vs k hklt, taskPrefix_succ]
        constructor <;> push_cast <;> ring_nf
      rw [hre]
      exact ih (k + 1) (by omega)

theorem recv_run (vs : List Nat) (m : Nat) : ∀ (k : Nat), k + m = vs.length → 1 ≤ m →
    (((List.range' k m).map (fun j => (j, vs.getD j 0))).foldl
        (fun st iv => runReceiver st iv.1 iv.2)
        ⟨arrMix vs k, chanHeap vs vs.length, ((vs.length : Int) - k), [], []⟩).cbLog
      = [arrMix vs vs.length] := by
  induction m with
  | zero =>
      intro k hk hm
      omega
  | succ m ih =>
      intro k hk hm
      have hklt : k < vs.length := by omega
      rw [List.range'_succ, List.map_cons, List.foldl_cons]
      by_cases hm0 : m = 0
      · subst hm0
        have hkn : k + 1 = vs.length := by omega
        have hrr : runReceiver
            ⟨arrMix vs k, chanHeap vs vs.length, ((vs.length : Int) - k), [], []⟩
              k (vs.getD k 0)
            = ⟨arrMix vs vs.length, chanHeap vs vs.length, 0, [],
                [arrMix vs vs.length]⟩ := by
          simp only [runReceiver, arrMix_set vs k hklt]
          rw [if_pos (by push_cast; omega)]
          simp only [hkn, List.nil_append]
          congr 1
          omega
        rw [hrr]
        rfl
      · have hrr : runReceiver
            ⟨arrMix vs k, chanHeap vs vs.length, ((vs.length : Int) - k), [], []⟩
              k (vs.getD k 0)
            = ⟨arrMix vs (k + 1), chanHeap vs vs.length,
                ((vs.length : Int) - (k + 1 : Nat)), [], []⟩ := by
          simp only [runReceiver, arrMix_set vs k hklt]
          rw [if_neg (by push_cast; omega)]
          congr 1
          omega
        rw [hrr]
        exact ih (k + 1) (by omega) (by omega)

end RES


/-- **C1, counterexample.**  Resolving the mixed array `[42, ch]` where
channel `ch` holds the value `7`: the completion callback is invoked at the
moment the outstanding count drops to zero, but the scalar's receiver (which
contributed 0 to the count yet still decrements it) fires first, so the
callback receives the array with the channel slot **not yet replaced**. -/
theorem claim_C1_counterexample :
    (RES.runResolve [.scalar 42, .chanRef 0] [⟨[7], []⟩]).cbLog
        = [[RES.RVal.scalar 42, RES.RVal.chanRef 0]] ∧
      [[RES.RVal.scalar 42, RES.RVal.chanRef 0]]
        ≠ [[RES.RVal.scalar 42, RES.RVal.scalar 7]] :=
  ⟨rfl, by decide⟩

/-- **C1, amended.**  For `Channel.resolve(arr, false, cb)` where `arr` is a
non-empty array whose elements are all channels, each holding a ready value,
`cb` is invoked exactly once, at the moment the outstanding count drops to
zero, with every channel slot replaced by its resolved value. -/
theorem claim_C1_amended (vs : List Nat) (hne : vs ≠ []) :
    (RES.runResolve (RES.allChans vs) (vs.map (fun v => ⟨[v], []⟩))).cbLog
      = [vs.map RES.RVal.scalar] := by
  have hpos : 0 < vs.length := List.length_pos.mpr hne
  have h1 : RES.allChans vs = (List.range' 0 vs.length).map RES.RVal.chanRef := by
    rw [RES.allChans, List.range_eq_range']
  have hl := RES.loop_run vs vs.length 0 (by omega)
  rw [← h1] at hl
  rw [show ((0 : Nat) : Int) = (0 : Int) from rfl] at hl
  rw [show RES.taskPrefix vs 0 = [] from rfl] at hl
  have hr := RES.recv_run vs vs.length 0 (by omega) (by omega)
  rw [RES.arrMix_zero] at hr
  rw [show ((0 : Nat) : Int) = (0 : Int) from rfl, sub_zero] at hr
  have h2 : RES.taskPrefix vs vs.length
      = (List.range' 0 vs.length).map (fun j => (j, vs.getD j 0)) := by
    rw [RES.taskPrefix, List.range_eq_range']
  rw [← h2] at hr
  rw [RES.arrMix_full] at hr
  unfold RES.runResolve RES.startResolve
  rw [RES.chanHeap_init, hl]
  exact hr

/-- Witness for the amended C1 at `vs = [7, 8, 9]`. -/
theorem claim_C1_amended_witness :
    (RES.runResolve (RES.allChans [7, 8, 9]) ([7, 8, 9].map (fun v => ⟨[v], []⟩))).cbLog
      = [[RES.RVal.scalar 7, RES.RVal.scalar 8, RES.RVal.scalar 9]] :=
  claim_C1_amended [7, 8, 9] (by simp)

namespace Cjs

theorem ackCount_append (id : Nat) (a b : List Ev) :
    ackCount id (a ++ b) = ackCount id a + ackCount id b := by
  simp [ackCount, List.countP_append]

theorem ackCount_ackEvs (id : Nat) (ack : Option Nat) (err : Option String) (v : Option Nat) :
    ackCount id (ackEvs ack err v) = acont ack id := by
  cases ack with
  | none => simp [ackEvs, ackCount, acont]
  | some a =>
      by_cases h : a = id
      · simp [ackEvs, ackCount, acont, h]
      · simp [ackEvs, ackCount, acont, h, List.countP_cons]

theorem ackCount_takerEvs (id : Nat) (cb : Option Nat) (v : Option Nat) :
    ackCount id (takerEvs cb v) = 0 := by
  cases cb <;> simp [takerEvs, ackCount, List.countP_cons]

theorem ackCount_taker (id c : Nat) (err : Option String) (v : Option Nat) :
    ackCount id [Ev.taker c err v] = 0 := by
  simp [ackCount, List.countP_cons]

theorem acont_none (id : Nat) : acont none id = 0 := by
  simp [acont]

theorem putB_conserve (id : Nat) (v : Nat) (ack : Option Nat) (ch : Ch) :
    ackCount id (putB v ack ch).2 + qcCount id (putB v ack ch).1
      = acont ack id + qcCount id ch := by
  match hp : ch.pending with
  | p :: rest =>
      simp only [putB, hp, ackCount_append, ackCount_ackEvs, ackCount_taker, qcCount]
      omega
  | [] =>
      simp only [putB, hp, qcCount, List.countP_append, ackCount]
      have : ([⟨ack, v⟩] : List CBV).countP (fun q => q.cb == some id) = acont ack id := by
        cases ack with
        | none => simp [acont, List.countP_cons]
        | some a =>
            by_cases h : a = id
            · simp [acont, h, List.countP_cons]
            · simp [acont, h, List.countP_cons]
      simp only [List.countP_nil]
      omega

theorem takeB_conserve (id : Nat) (cb : Option Nat) (ch : Ch) :
    ackCount id (takeB cb ch).2 + qcCount id (takeB cb ch).1 = qcCount id ch := by
  match hq : ch.queue with
  | q :: rest =>
      simp only [takeB, hq, ackCount_append, ackCount_ackEvs, ackCount_takerEvs, qcCount,
        List.countP_cons]
      cases q.cb with
      | none => simp [acont]
      | some a =>
          by_cases h : a = id
          · simp [acont, h]
            omega
          · simp [acont, h]
  | [] =>
      cases cb with
      | none => simp [takeB, hq, ackCount]
      | some c => simp [takeB, hq, ackCount, qcCount]

theorem expireLoopF_conserve (id : Nat) (N : Nat) : ∀ (fuel : Nat) (ch : Ch),
    ackCount id (expireLoopF N fuel ch).2 + qcCount id (expireLoopF N fuel ch).1
      = qcCount id ch := by
  intro fuel
  induction fuel with
  | zero => intro ch; simp [expireLoopF, ackCount]
  | succ fuel ih =>
      intro ch
      rw [expireLoopF]
      split
      · match hq : ch.queue with
        | [] => simp [ackCount]
        | q :: rest =>
            have iht := ih (takeB none ch).1
            have ht := takeB_conserve id none ch
            simp only [ackCount_append]
            omega
      · simp [ackCount]

theorem expireLoop_conserve (id : Nat) (N : Nat) (ch : Ch) :
    ackCount id (expireLoop N ch).2 + qcCount id (expireLoop N ch).1 = qcCount id ch :=
  expireLoopF_conserve id N ch.queue.length ch

theorem fillLoop_noacks (id : Nat) (v qlen : Nat) (p : List Nat) :
    ackCount id (fillLoop v qlen p).2 = 0 := by
  induction p with
  | nil => simp [fillLoop, ackCount]
  | cons w rest ih =>
      rw [fillLoop]
      split
      · simp only [ackCount, List.countP_cons]
        simp only [ackCount] at ih
        simp [ih]
      · simp [ackCount]

theorem fill_conserve (id : Nat) (v : Nat) (ch : Ch) :
    ackCount id (fill v ch).2.1 + qcCount id (fill v ch).1 = qcCount id ch := by
  match hf : ch.filled with
  | some w => simp [fill, hf, ackCount]
  | none =>
      by_cases hc : ch.pending.length < ch.queue.length
      · simp [fill, hf, hc, ackCount]
      · simp only [fill, hf, if_neg hc]
        rw [fillLoop_noacks]
        simp [qcCount]

theorem droppingPut_conserve (id : Nat) (N v : Nat) (ack : Option Nat) (ch : Ch) :
    ackCount id (droppingPut N v ack ch).2 + qcCount id (droppingPut N v ack ch).1
      = acont ack id + qcCount id ch := by
  unfold droppingPut
  split
  · have hp := putB_conserve id v none ch
    rw [acont_none] at hp
    simp only [ackCount_append, ackCount_ackEvs]
    omega
  · simp [ackCount_ackEvs, qcCount]

theorem bufferedPut_conserve (id : Nat) (N v : Nat) (ack : Option Nat) (ch : Ch) :
    ackCount id (bufferedPut N v ack ch).2 + qcCount id (bufferedPut N v ack ch).1
      = acont ack id + qcCount id ch := by
  unfold bufferedPut
  split
  · have hp := putB_conserve id v none ch
    rw [acont_none] at hp
    simp only [ackCount_append, ackCount_ackEvs]
    omega
  · exact putB_conserve id v ack ch

theorem expiringPut_conserve (id : Nat) (N v : Nat) (ack : Option Nat) (ch : Ch) :
    ackCount id (expiringPut N v ack ch).2 + qcCount id (expiringPut N v ack ch).1
      = acont ack id + qcCount id ch := by
  unfold expiringPut
  have he := expireLoop_conserve id N ch
  have hp := putB_conserve id v none (expireLoop N ch).1
  rw [acont_none] at hp
  simp only [ackCount_append, ackCount_ackEvs]
  omega

theorem countP_set (p : CBV → Bool) : ∀ (l : List CBV) (k : Nat) (q b : CBV),
    l[k]? = some q →
    (l.set k b).countP p + (if p q then 1 else 0)
      = l.countP p + (if p b then 1 else 0) := by
  intro l
  induction l with
  | nil => intro k q b h; simp at h
  | cons x xs ih =>
      intro k q b h
      cases k with
      | zero =>
          simp only [List.getElem?_cons_zero, Option.some_inj] at h
          subst h
          simp only [List.set_cons_zero, List.countP_cons]
          by_cases hx : p x <;> by_cases hb : p b <;> simp [hx, hb] <;> omega
      | succ k =>
          simp only [List.getElem?_cons_succ] at h
          have := ih k q b h
          simp only [List.set_cons_succ, List.countP_cons]
          by_cases hx : p x <;> simp [hx] <;> omega

theorem bufferedTake_conserve (id : Nat) (N : Nat) (cb : Option Nat) (ch : Ch) :
    ackCount id (bufferedTake N cb ch).2 + qcCount id (bufferedTake N cb ch).1
      = qcCount id ch := by
  unfold bufferedTake
  have ht := takeB_conserve id cb ch
  dsimp only
  split
  · split
    · next q hq =>
        have hs := countP_set (fun q => q.cb == some id) (takeB cb ch).1.queue (N - 1) q
          ⟨none, q.value⟩ hq
        simp only [ackCount_append, ackCount_ackEvs, qcCount] at ht hs ⊢
        have hnone : (if (((⟨none, q.value⟩ : CBV).cb == some id) = true) then 1 else 0) = 0 := by
          simp
        rw [hnone] at hs
        have hacont : acont q.cb id = (if ((q.cb == some id) = true) then 1 else 0) := by
          cases hcb : q.cb with
          | none => simp [acont]
          | some a =>
              by_cases hai : a = id
              · simp [acont, hai]
              · simp [acont, hai]
        rw [hacont]
        omega
    · exact ht
  · exact ht

theorem putK_conserve (id : Nat) (k : Kind) (v : Nat) (ack : Option Nat) (ch : Ch) :
    ackCount id (putK k v ack ch).2 + qcCount id (putK k v ack ch).1
      = acont ack id + qcCount id ch := by
  unfold putK
  match hf : ch.filled with
  | some w => simp [ackCount_ackEvs, qcCount]
  | none =>
      match k with
      | .base => exact putB_conserve id v ack ch
      | .buffered N => exact bufferedPut_conserve id N v ack ch
      | .dropping N => exact droppingPut_conserve id N v ack ch
      | .expiring N => exact expiringPut_conserve id N v ack ch

theorem takeK_conserve (id : Nat) (k : Kind) (cb : Option Nat) (ch : Ch) :
    ackCount id (takeK k cb ch).2 + qcCount id (takeK k cb ch).1 = qcCount id ch := by
  unfold takeK
  match hf : ch.filled with
  | some w => simp [ackCount_takerEvs, qcCount]
  | none =>
      match k with
      | .base => exact takeB_conserve id cb ch
      | .buffered N => exact bufferedTake_conserve id N cb ch
      | .dropping N => exact takeB_conserve id cb ch
      | .expiring N => exact takeB_conserve id cb ch

theorem putCount_single_put (id : Nat) (v : Nat) (ack : Option Nat) :
    putCount id [Op.put v ack] = acont ack id := by
  cases ack with
  | none => simp [putCount, acont, List.countP_cons]
  | some a =>
      by_cases h : a = id
      · simp [putCount, acont, h, List.countP_cons]
      · simp [putCount, acont, h, List.countP_cons]

theorem putCount_cons (id : Nat) (o : Op) (rest : List Op) :
    putCount id (o :: rest) = putCount id [o] + putCount id rest := by
  simp [putCount, List.countP_cons]
  omega

theorem execOp_conserve (id : Nat) (k : Kind) (st : St) (op : Op) :
    ackCount id (execOp k st op).log + qcCount id (execOp k st op).ch
      = ackCount id st.log + qcCount id st.ch + putCount id [op] := by
  cases op with
  | put v ack =>
      have h := putK_conserve id k v ack st.ch
      simp only [execOp, ackCount_append, putCount_single_put]
      omega
  | take cb =>
      have h := takeK_conserve id k cb st.ch
      simp only [execOp, ackCount_append]
      have : putCount id [Op.take cb] = 0 := by simp [putCount, List.countP_cons]
      omega
  | fillOp v =>
      have h := fill_conserve id v st.ch
      simp only [execOp, ackCount_append]
      have : putCount id [Op.fillOp v] = 0 := by simp [putCount, List.countP_cons]
      omega

theorem foldl_conserve (id : Nat) (k : Kind) :
    ∀ (l : List Op) (st : St),
    ackCount id (l.foldl (execOp k) st).log + qcCount id (l.foldl (execOp k) st).ch
      = ackCount id st.log + qcCount id st.ch + putCount id l := by
  intro l
  induction l with
  | nil =>
      intro st
      simp [putCount]
  | cons op rest ih =>
      intro st
      rw [List.foldl_cons]
      have h1 := ih (execOp k st op)
      have h2 := execOp_conserve id k st op
      rw [putCount_cons]
      omega

theorem mem_set_cases {α : Type} : ∀ (l : List α) (k : Nat) (b x : α),
    x ∈ l.set k b → x ∈ l ∨ x = b := by
  intro l
  induction l with
  | nil => intro k b x h; simp at h
  | cons y ys ih =>
      intro k b x h
      cases k with
      | zero =>
          rw [List.set_cons_zero] at h
          rcases List.mem_cons.mp h with h | h
          · exact Or.inr h
          · exact Or.inl (List.mem_cons_of_mem y h)
      | succ k =>
          rw [List.set_cons_succ] at h
          rcases List.mem_cons.mp h with h | h
          · exact Or.inl (by simp [h])
          · rcases ih k b x h with h | h
            · exact Or.inl (List.mem_cons_of_mem y h)
            · exact Or.inr h

/-- Events scheduled by the base `put`: the producer's own ack with the put
value, or a taker delivery. -/
theorem putB_ev (v : Nat) (ack : Option Nat) (ch : Ch) :
    ∀ e ∈ (putB v ack ch).2,
      (∃ a, ack = some a ∧ e = .ack a none (some v)) ∨ (∃ c w, e = .taker c none w) := by
  intro e he
  match hp : ch.pending with
  | p :: rest =>
      simp only [putB, hp] at he
      rcases List.mem_append.mp he with h | h
      · cases ack with
        | none => simp [ackEvs] at h
        | some a =>
            simp only [ackEvs, List.mem_singleton] at h
            exact Or.inl ⟨a, rfl, h⟩
      · simp only [List.mem_singleton] at h
        exact Or.inr ⟨p, some v, h⟩
  | [] =>
      simp [putB, hp] at he

theorem putB_queue (v : Nat) (ack : Option Nat) (ch : Ch) :
    ∀ q ∈ (putB v ack ch).1.queue, q ∈ ch.queue ∨ q = ⟨ack, v⟩ := by
  intro q hq
  match hp : ch.pending with
  | p :: rest =>
      simp only [putB, hp] at hq
      exact Or.inl hq
  | [] =>
      simp only [putB, hp] at hq
      rcases List.mem_append.mp hq with h | h
      · exact Or.inl h
      · simp only [List.mem_singleton] at h
        exact Or.inr h

/-- Events scheduled by the base `take`: the parked ack of a queue record
(with that record's value), or a taker delivery. -/
theorem takeB_ev (cb : Option Nat) (ch : Ch) :
    ∀ e ∈ (takeB cb ch).2,
      (∃ q, q ∈ ch.queue ∧ ∃ a, q.cb = some a ∧ e = .ack a none (some q.value)) ∨
        (∃ c w, e = .taker c none w) := by
  intro e he
  match hq : ch.queue with
  | q :: rest =>
      simp only [takeB, hq] at he
      rcases List.mem_append.mp he with h | h
      · match hcb : q.cb with
        | none => simp [ackEvs, hcb] at h
        | some a =>
            simp only [ackEvs, hcb, List.mem_singleton] at h
            exact Or.inl ⟨q, by simp [hq], a, hcb, h⟩
      · match hc : cb with
        | none => simp [takerEvs, hc] at h
        | some c =>
            simp only [takerEvs, hc, List.mem_singleton] at h
            exact Or.inr ⟨c, some q.value, h⟩
  | [] =>
      match hc : cb with
      | none => simp [takeB, hq, hc] at he
      | some c => simp [takeB, hq, hc] at he

theorem takeB_queue (cb : Option Nat) (ch : Ch) :
    ∀ q ∈ (takeB cb ch).1.queue, q ∈ ch.queue := by
  intro q hq
  match hqu : ch.queue with
  | q0 :: rest =>
      simp only [takeB, hqu] at hq
      simp [hqu, hq]
  | [] =>
      match hc : cb with
      | none =>
          simp only [takeB, hqu] at hq
          simp at hq
      | some c =>
          simp only [takeB, hqu] at hq
          simp at hq

theorem expireLoopF_queue (N : Nat) : ∀ (fuel : Nat) (ch : Ch),
    ∀ q ∈ (expireLoopF N fuel ch).1.queue, q ∈ ch.queue := by
  intro fuel
  induction fuel with
  | zero => intro ch q hq; exact hq
  | succ fuel ih =>
      intro ch q hq
      rw [expireLoopF] at hq
      split at hq
      · split at hq
        · exact hq
        · exact takeB_queue none ch q (ih (takeB none ch).1 q hq)
      · exact hq

theorem expireLoop_queue (N : Nat) (ch : Ch) :
    ∀ q ∈ (expireLoop N ch).1.queue, q ∈ ch.queue :=
  expireLoopF_queue N ch.queue.length ch

theorem expireLoopF_ev (N : Nat) : ∀ (fuel : Nat) (ch : Ch),
    ∀ e ∈ (expireLoopF N fuel ch).2,
      (∃ q, q ∈ ch.queue ∧ ∃ a, q.cb = some a ∧ e = .ack a none (some q.value)) ∨
        (∃ c w, e = .taker c none w) := by
  intro fuel
  induction fuel with
  | zero => intro ch e he; simp [expireLoopF] at he
  | succ fuel ih =>
      intro ch e he
      rw [expireLoopF] at he
      split at he
      · split at he
        · simp at he
        · rcases List.mem_append.mp he with h | h
          · exact takeB_ev none ch e h
          · rcases ih (takeB none ch).1 e h with ⟨q, hql, rest⟩ | h
            · exact Or.inl ⟨q, takeB_queue none ch q hql, rest⟩
            · exact Or.inr h
      · simp at he

theorem expireLoop_ev (N : Nat) (ch : Ch) :
    ∀ e ∈ (expireLoop N ch).2,
      (∃ q, q ∈ ch.queue ∧ ∃ a, q.cb = some a ∧ e = .ack a none (some q.value)) ∨
        (∃ c w, e = .taker c none w) :=
  expireLoopF_ev N ch.queue.length ch

theorem fillLoop_ev (v qlen : Nat) (p : List Nat) :
    ∀ e ∈ (fillLoop v qlen p).2, ∃ c w, e = .taker c none w := by
  induction p with
  | nil => intro e he; simp [fillLoop] at he
  | cons x xs ih =>
      intro e he
      rw [fillLoop] at he
      split at he
      · rcases List.mem_cons.mp he with h | h
        · exact ⟨x, some v, h⟩
        · exact ih e h
      · simp at he

theorem fill_queue (v : Nat) (ch : Ch) : (fill v ch).1.queue = ch.queue := by
  match hf : ch.filled with
  | some w => simp [fill, hf]
  | none =>
      by_cases hc : ch.pending.length < ch.queue.length
      · simp [fill, hf, hc]
      · simp [fill, hf, hc]

theorem fill_ev (v : Nat) (ch : Ch) :
    ∀ e ∈ (fill v ch).2.1, ∃ c w, e = .taker c none w := by
  intro e he
  match hf : ch.filled with
  | some w => simp [fill, hf] at he
  | none =>
      by_cases hc : ch.pending.length < ch.queue.length
      · simp [fill, hf, hc] at he
      · simp only [fill, hf, if_neg hc] at he
        exact fillLoop_ev v ch.queue.length ch.pending e he

theorem mem_of_getElem_some {α : Type} (l : List α) (n : Nat) (a : α)
    (h : l[n]? = some a) : a ∈ l := by
  obtain ⟨hlt, heq⟩ := List.getElem?_eq_some.mp h
  exact heq ▸ List.getElem_mem hlt

theorem execOp_ok (k : Kind) (ops : List Op) (op : Op) (st : St)
    (hop : op ∈ ops)
    (hlog : ∀ e ∈ st.log, evOk k ops e)
    (hqok : ∀ q ∈ st.ch.queue, cbvOk ops q) :
    (∀ e ∈ (execOp k st op).log, evOk k ops e) ∧
      (∀ q ∈ (execOp k st op).ch.queue, cbvOk ops q) := by
  cases op with
  | put v ack =>
      have hself : ∀ a, ack = some a → Op.put v (some a) ∈ ops := by
        intro a ha
        rw [← ha]
        exact hop
      have hevput : ∀ e ∈ ackEvs ack none (some v), evOk k ops e := by
        intro e he
        match hac : ack, he with
        | some a, he =>
            simp only [ackEvs, List.mem_singleton] at he
            subst he
            exact ⟨v, hself a rfl, Or.inl ⟨rfl, rfl⟩⟩
      have hnonecbv : cbvOk ops (⟨none, v⟩ : CBV) := by
        intro a ha
        simp at ha
      have hackcbv : cbvOk ops (⟨ack, v⟩ : CBV) := by
        intro a ha
        simp only at ha
        exact hself a ha
      constructor
      · intro e he
        simp only [execOp] at he
        rcases List.mem_append.mp he with h | h
        · exact hlog e h
        · unfold putK at h
          match hf : st.ch.filled with
          | some w =>
              rw [hf] at h
              dsimp only at h
              match hac : ack, h with
              | some a, h =>
                  simp only [ackEvs, List.mem_singleton] at h
                  subst h
                  exact ⟨v, hself a rfl, Or.inr (Or.inr ⟨rfl, rfl⟩)⟩
          | none =>
              rw [hf] at h
              cases k with
              | base =>
                  dsimp only at h
                  rcases putB_ev v ack st.ch e h with ⟨a, ha, hev⟩ | ⟨c, w, hev⟩
                  · subst hev
                    exact ⟨v, hself a ha, Or.inl ⟨rfl, rfl⟩⟩
                  · subst hev
                    trivial
              | buffered N =>
                  dsimp only at h
                  unfold bufferedPut at h
                  split at h
                  · rcases List.mem_append.mp h with h2 | h2
                    · rcases putB_ev v none st.ch e h2 with ⟨a, ha, hev⟩ | ⟨c, w, hev⟩
                      · simp at ha
                      · subst hev; trivial
                    · exact hevput e h2
                  · rcases putB_ev v ack st.ch e h with ⟨a, ha, hev⟩ | ⟨c, w, hev⟩
                    · subst hev
                      exact ⟨v, hself a ha, Or.inl ⟨rfl, rfl⟩⟩
                    · subst hev; trivial
              | dropping N =>
                  dsimp only at h
                  unfold droppingPut at h
                  split at h
                  · rcases List.mem_append.mp h with h2 | h2
                    · rcases putB_ev v none st.ch e h2 with ⟨a, ha, hev⟩ | ⟨c, w, hev⟩
                      · simp at ha
                      · subst hev; trivial
                    · exact hevput e h2
                  · match hac : ack, h with
                    | some a, h =>
                        simp only [ackEvs, List.mem_singleton] at h
                        subst h
                        exact ⟨v, hself a rfl, Or.inr (Or.inl ⟨⟨N, rfl⟩, rfl, rfl⟩)⟩
              | expiring N =>
                  dsimp only at h
                  unfold expiringPut at h
                  dsimp only at h
                  rcases List.mem_append.mp h with h2 | h2
                  · rcases List.mem_append.mp h2 with h3 | h3
                    · rcases expireLoop_ev N st.ch e h3 with ⟨q, hql, a, hcb, hev⟩ | ⟨c, w, hev⟩
                      · subst hev
                        exact ⟨q.value, hqok q hql a hcb, Or.inl ⟨rfl, rfl⟩⟩
                      · subst hev; trivial
                    · rcases putB_ev v none (expireLoop N st.ch).1 e h3 with ⟨a, ha, hev⟩ | ⟨c, w, hev⟩
                      · simp at ha
                      · subst hev; trivial
                  · exact hevput e h2
      · intro q hq
        simp only [execOp] at hq
        unfold putK at hq
        match hf : st.ch.filled with
        | some w =>
            rw [hf] at hq
            dsimp only at hq
            exact hqok q hq
        | none =>
            rw [hf] at hq
            cases k with
            | base =>
                dsimp only at hq
                rcases putB_queue v ack st.ch q hq with h | h
                · exact hqok q h
                · exact h ▸ hackcbv
            | buffered N =>
                dsimp only at hq
                unfold bufferedPut at hq
                split at hq
                · rcases putB_queue v none st.ch q hq with h | h
                  · exact hqok q h
                  · exact h ▸ hnonecbv
                · rcases putB_queue v ack st.ch q hq with h | h
                  · exact hqok q h
                  · exact h ▸ hackcbv
            | dropping N =>
                dsimp only at hq
                unfold droppingPut at hq
                split at hq
                · rcases putB_queue v none st.ch q hq with h | h
                  · exact hqok q h
                  · exact h ▸ hnonecbv
                · exact hqok q hq
            | expiring N =>
                dsimp only at hq
                unfold expiringPut at hq
                dsimp only at hq
                rcases putB_queue v none (expireLoop N st.ch).1 q hq with h | h
                · exact hqok q (expireLoop_queue N st.ch q h)
                · exact h ▸ hnonecbv
  | take cb =>
      constructor
      · intro e he
        simp only [execOp] at he
        rcases List.mem_append.mp he with h | h
        · exact hlog e h
        · unfold takeK at h
          match hf : st.ch.filled with
          | some w =>
              rw [hf] at h
              dsimp only at h
              match hc : cb, h with
              | some c, h =>
                  simp only [takerEvs, List.mem_singleton] at h
                  subst h
                  trivial
          | none =>
              rw [hf] at h
              have hbase : ∀ e ∈ (takeB cb st.ch).2, evOk k ops e := by
                intro e2 he2
                rcases takeB_ev cb st.ch e2 he2 with ⟨q, hql, a, hcb, hev⟩ | ⟨c, w, hev⟩
                · subst hev
                  exact ⟨q.value, hqok q hql a hcb, Or.inl ⟨rfl, rfl⟩⟩
                · subst hev; trivial
              cases k with
              | base =>
                  dsimp only at h
                  exact hbase e h
              | dropping N =>
                  dsimp only at h
                  exact hbase e h
              | expiring N =>
                  dsimp only at h
                  exact hbase e h
              | buffered N =>
                  dsimp only at h
                  unfold bufferedTake at h
                  dsimp only at h
                  split at h
                  · split at h
                    · next q0 hq0 =>
                        rcases List.mem_append.mp h with h2 | h2
                        · exact hbase e h2
                        · match hcb0 : q0.cb, h2 with
                          | some a, h2 =>
                              simp only [ackEvs, List.mem_singleton] at h2
                              subst h2
                              have hmem : q0 ∈ (takeB cb st.ch).1.queue :=
                                mem_of_getElem_some _ _ _ hq0
                              exact ⟨q0.value,
                                hqok q0 (takeB_queue cb st.ch q0 hmem) a hcb0,
                                Or.inl ⟨rfl, rfl⟩⟩
                    · exact hbase e h
                  · exact hbase e h
      · intro q hq
        simp only [execOp] at hq
        unfold takeK at hq
        match hf : st.ch.filled with
        | some w =>
            rw [hf] at hq
            dsimp only at hq
            exact hqok q hq
        | none =>
            rw [hf] at hq
            cases k with
            | base =>
                dsimp only at hq
                exact hqok q (takeB_queue cb st.ch q hq)
            | dropping N =>
                dsimp only at hq
                exact hqok q (takeB_queue cb st.ch q hq)
            | expiring N =>
                dsimp only at hq
                exact hqok q (takeB_queue cb st.ch q hq)
            | buffered N =>
                dsimp only at hq
                unfold bufferedTake at hq
                dsimp only at hq
                split at hq
                · split at hq
                  · next q0 hq0 =>
                      rcases mem_set_cases _ _ _ _ hq with h | h
                      · exact hqok q (takeB_queue cb st.ch q h)
                      · subst h
                        intro a ha
                        simp at ha
                  · exact hqok q (takeB_queue cb st.ch q hq)
                · exact hqok q (takeB_queue cb st.ch q hq)
  | fillOp v =>
      constructor
      · intro e he
        simp only [execOp] at he
        rcases List.mem_append.mp he with h | h
        · exact hlog e h
        · obtain ⟨c, w, hev⟩ := fill_ev v st.ch e h
          subst hev
          trivial
      · intro q hq
        simp only [execOp, fill_queue] at hq
        exact hqok q hq

theorem foldl_ok (k : Kind) (ops : List Op) :
    ∀ (l : List Op) (st : St), (∀ o ∈ l, o ∈ ops) →
    (∀ e ∈ st.log, evOk k ops e) → (∀ q ∈ st.ch.queue, cbvOk ops q) →
    (∀ e ∈ (l.foldl (execOp k) st).log, evOk k ops e) ∧
      (∀ q ∈ (l.foldl (execOp k) st).ch.queue, cbvOk ops q) := by
  intro l
  induction l with
  | nil =>
      intro st _ h1 h2
      exact ⟨h1, h2⟩
  | cons op rest ih =>
      intro st hsub h1 h2
      rw [List.foldl_cons]
      have h3 := execOp_ok k ops op st (hsub op (by simp)) h1 h2
      exact ih (execOp k st op) (fun o ho => hsub o (by simp [ho])) h3.1 h3.2

end Cjs

/-- **C2, counterexample.**  On `expiringBuffer(1)`, `put(1, a)` then
`put(2, b)`: the value `1` is discarded (the final queue holds only `2`),
but no ack is ever invoked with `(null, null)` — `a` gets `(null, 1)` at
acceptance and `b` gets `(null, 2)`; the discarded value's parked record
has no ack (`expiringPut` forwards without callback), so the claimed
`(null, null)` invocation for an expiringBuffer discard never happens. -/
theorem claim_C2_counterexample :
    (Cjs.runOps (.expiring 1) [.put 1 (some 0), .put 2 (some 1)]).log
        = [Cjs.Ev.ack 0 none (some 1), Cjs.Ev.ack 1 none (some 2)] ∧
      (Cjs.runOps (.expiring 1) [.put 1 (some 0), .put 2 (some 1)]).ch.queue
        = [⟨none, 2⟩] ∧
      Cjs.Ev.ack 0 none none ∉ (Cjs.runOps (.expiring 1) [.put 1 (some 0), .put 2 (some 1)]).log ∧
      Cjs.Ev.ack 1 none none ∉ (Cjs.runOps (.expiring 1) [.put 1 (some 0), .put 2 (some 1)]).log := by
  refine ⟨rfl, rfl, by decide, by decide⟩

/-- **C2, amended.**  For every channel kind (base, `buffer`,
`droppingBuffer`, `expiringBuffer`, possibly `fill`ed along the way) and
every operation sequence: (1) per ack id, invocations in the dispatch log
plus copies still parked in the queue equal the number of `put`s carrying
that id — so an ack is invoked at most once when ids are not reused, and
exactly once unless its value still sits unconsumed in the queue; (2) with
an unreused id the log holds at most one invocation; (3) every logged ack
invocation belongs to a `put` of the program and carries `(null, v)` with
`v` that put's value (delivery to a taker, or acceptance within a buffer),
`(null, null)` only on a `droppingBuffer` discarding the new value, or
`('filled', null)` on a filled channel.  An `expiringBuffer` is not
`dropping`, so none of its acks is `(null, null)`. -/
theorem claim_C2_ack_discipline (k : Cjs.Kind) (ops : List Cjs.Op) :
    (∀ id, Cjs.ackCount id (Cjs.runOps k ops).log + Cjs.qcCount id (Cjs.runOps k ops).ch
        = Cjs.putCount id ops) ∧
    (∀ id, Cjs.putCount id ops ≤ 1 → Cjs.ackCount id (Cjs.runOps k ops).log ≤ 1) ∧
    (∀ e ∈ (Cjs.runOps k ops).log, Cjs.evOk k ops e) := by
  have hcons : ∀ id,
      Cjs.ackCount id (Cjs.runOps k ops).log + Cjs.qcCount id (Cjs.runOps k ops).ch
        = Cjs.putCount id ops := by
    intro id
    have h := Cjs.foldl_conserve id k ops ⟨Cjs.Ch.new, []⟩
    have h0 : Cjs.ackCount id ([] : List Cjs.Ev) = 0 := by simp [Cjs.ackCount]
    have h1 : Cjs.qcCount id Cjs.Ch.new = 0 := by simp [Cjs.qcCount, Cjs.Ch.new]
    rw [h0, h1] at h
    simpa [Cjs.runOps] using h
  refine ⟨hcons, ?_, ?_⟩
  · intro id hle
    have := hcons id
    omega
  · have h := Cjs.foldl_ok k ops ops ⟨Cjs.Ch.new, []⟩ (fun o ho => ho)
      (by intro e he; simp at he) (by intro q hq; simp [Cjs.Ch.new] at hq)
    exact h.1

/-- Witness for the amended C2: `droppingBuffer(1)` with two puts — the
conservation equation at both ids, and the argument discipline at the
logged `(null, null)` drop event. -/
theorem claim_C2_ack_discipline_witness :
    (Cjs.ackCount 1 (Cjs.runOps (.dropping 1) [.put 1 (some 0), .put 2 (some 1)]).log
        + Cjs.qcCount 1 (Cjs.runOps (.dropping 1) [.put 1 (some 0), .put 2 (some 1)]).ch
        = Cjs.putCount 1 [Cjs.Op.put 1 (some 0), Cjs.Op.put 2 (some 1)]) ∧
      Cjs.evOk (.dropping 1) [Cjs.Op.put 1 (some 0), Cjs.Op.put 2 (some 1)]
        (Cjs.Ev.ack 1 none none) := by
  constructor
  · exact (claim_C2_ack_discipline (.dropping 1) [.put 1 (some 0), .put 2 (some 1)]).1 1
  · exact (claim_C2_ack_discipline (.dropping 1) [.put 1 (some 0), .put 2 (some 1)]).2.2
      (Cjs.Ev.ack 1 none none) (by decide)
